import Mathlib

/-!
Verification of the geometric-primitive layer of `taichi_three`
(`src/taichi_three/objects.py`).

The numeric type is `ℝ` (the source computes with floats; we model exact real
arithmetic).  Vectors are records of reals.  The vector/scalar math utilities
(`dot`, `cross`, `normalize`, `distance`, `clamp`, `smoothstep`) come from the
external `taichi_glsl` library and are modelled with their standard GLSL
meanings.  The camera/projection (`untrans_pos`, `uncook_coor`) and shading
(`opt.render_func`, `opt.pre_process`) collaborators are external interfaces,
so the rasterizers below take the already-projected screen coordinates and the
already-computed flat color as inputs.  The constants `EPS` and `INF` live in
`taichi_three/common.py`, which is not part of this fragment; they are passed
as explicit parameters (`EPS` a small positive acceptance threshold, `INF` the
designated no-hit sentinel).
-/

noncomputable section

/-- 2-D screen-space vector. -/
structure Vec2 where
  x : ℝ
  y : ℝ
deriving DecidableEq

/-- 3-D vector. -/
structure Vec3 where
  x : ℝ
  y : ℝ
  z : ℝ
deriving DecidableEq

namespace Vec2

def add (u v : Vec2) : Vec2 := ⟨u.x + v.x, u.y + v.y⟩

def sub (u v : Vec2) : Vec2 := ⟨u.x - v.x, u.y - v.y⟩

def smul (r : ℝ) (v : Vec2) : Vec2 := ⟨r * v.x, r * v.y⟩

/-- `ts.dot` on 2-D vectors. -/
def dot (u v : Vec2) : ℝ := u.x * v.x + u.y * v.y

/-- `ts.cross` on 2-D vectors: the scalar z-component of the 3-D cross
product. -/
def cross (u v : Vec2) : ℝ := u.x * v.y - u.y * v.x

/-- `v.norm_sqr()`. -/
def norm_sqr (v : Vec2) : ℝ := v.x * v.x + v.y * v.y

/-- `v.norm()` / `ts.length`. -/
def length (v : Vec2) : ℝ := Real.sqrt v.norm_sqr

/-- Componentwise `min` (taichi `min` on vectors). -/
def minv (u v : Vec2) : Vec2 := ⟨min u.x v.x, min u.y v.y⟩

/-- Componentwise `max` (taichi `max` on vectors). -/
def maxv (u v : Vec2) : Vec2 := ⟨max u.x v.x, max u.y v.y⟩

end Vec2

namespace Vec3

def add (u v : Vec3) : Vec3 := ⟨u.x + v.x, u.y + v.y, u.z + v.z⟩

def sub (u v : Vec3) : Vec3 := ⟨u.x - v.x, u.y - v.y, u.z - v.z⟩

def smul (r : ℝ) (v : Vec3) : Vec3 := ⟨r * v.x, r * v.y, r * v.z⟩

/-- `ts.dot`. -/
def dot (u v : Vec3) : ℝ := u.x * v.x + u.y * v.y + u.z * v.z

/-- `v.norm_sqr()`. -/
def norm_sqr (v : Vec3) : ℝ := v.x * v.x + v.y * v.y + v.z * v.z

/-- `v.norm()`. -/
def norm (v : Vec3) : ℝ := Real.sqrt v.norm_sqr

/-- `ts.distance`. -/
def distance (u v : Vec3) : ℝ := (u.sub v).norm

/-- `ts.normalize`: `v / |v|` (division by a zero norm is modelled by Lean's
`1/0 = 0`, giving the zero vector). -/
def normalize (v : Vec3) : Vec3 := smul (1 / v.norm) v

/-- Componentwise `min` (the merge performed by `ti.atomic_min` on a vector
field element). -/
def minv (u v : Vec3) : Vec3 := ⟨min u.x v.x, min u.y v.y, min u.z v.z⟩

/-- Componentwise `max` (the merge performed by `ti.atomic_max` on a vector
field element). -/
def maxv (u v : Vec3) : Vec3 := ⟨max u.x v.x, max u.y v.y, max u.z v.z⟩

/-- `ts.vec3(t)`: the uniform vector. -/
def splat (t : ℝ) : Vec3 := ⟨t, t, t⟩

end Vec3

/-- GLSL `clamp`. -/
def clamp (x lo hi : ℝ) : ℝ := min (max x lo) hi

/-- `ts.smoothstep(v, a, b)`: cubic Hermite interpolation, 0 at `a`, 1 at
`b`. -/
def smoothstep (v a b : ℝ) : ℝ :=
  let t := clamp ((v - a) / (b - a)) 0 1
  t * t * (3 - 2 * t)

/-- One materialized `Ball` instance, as produced by `Ball.make_one`:
`Ball(self.pos[I], self.radius[I])`. -/
structure BallInst where
  pos : Vec3
  radius : ℝ

namespace Ball

/-- `Ball.do_calc_sdf`: `ts.distance(self.pos, p) - self.radius`. -/
def do_calc_sdf (b : BallInst) (p : Vec3) : ℝ :=
  Vec3.distance b.pos p - b.radius

/-- `Ball.do_intersect(orig, dir)`.  Faithful to the source:
`op = pos - orig`, `b = op.dot(dir)`, `det = b**2 - op.norm_sqr() + radius**2`;
`ret = INF` unless `det > 0`, in which case the near root `b - sqrt det` is
taken when `> EPS`, else the far root `b + sqrt det` when `> EPS`, else `INF`;
the returned normal is `ts.normalize(dir * ret - op)`, computed
unconditionally from this instance's own `op` and its own `ret`. -/
def do_intersect (EPS INF : ℝ) (bl : BallInst) (orig dir : Vec3) : ℝ × Vec3 :=
  let op := bl.pos.sub orig
  let b := op.dot dir
  let det := b ^ 2 - op.norm_sqr + bl.radius ^ 2
  let ret :=
    if det > 0 then
      let d := Real.sqrt det
      let t := b - d
      if t > EPS then t
      else
        let t' := b + d
        if t' > EPS then t' else INF
    else INF
  (ret, Vec3.normalize ((Vec3.smul ret dir).sub op))

end Ball

namespace ObjectRT

/-- `ObjectRT.calc_sdf(p)`: linear scan over the batch (is `ti.ndrange` over
`self.pos.shape()`, modelled as a list of materialized instances in iteration
order), folding `min` from the initial value `INF`. -/
def calc_sdf (INF : ℝ) (balls : List BallInst) (p : Vec3) : ℝ :=
  balls.foldl (fun ret b => min ret (Ball.do_calc_sdf b p)) INF

/-- `ObjectRT.intersect(orig, dir)`: state `(ret, normal)` starts at
`(INF, ts.vec3(0.0))`; each instance's `do_intersect` result replaces the
state exactly when its distance is strictly smaller than the running one. -/
def intersect (EPS INF : ℝ) (balls : List BallInst) (orig dir : Vec3) :
    ℝ × Vec3 :=
  balls.foldl
    (fun acc b =>
      let r := Ball.do_intersect EPS INF b orig dir
      if r.1 < acc.1 then r else acc)
    (INF, Vec3.splat 0)

end ObjectRT

/-- The framebuffer `scene.img`: a `Vec3` color per integer pixel
coordinate. -/
def Image : Type := ℤ × ℤ → Vec3

/-- The real-valued position of an integer pixel coordinate (taichi promotes
the integer loop index `X` to floats inside the arithmetic). -/
def pixelPt (X : ℤ × ℤ) : Vec2 := ⟨(X.1 : ℝ), (X.2 : ℝ)⟩

namespace Line

/-- The half-width constant `W = 1` of `Line.do_render`. -/
def W : ℝ := 1

/-- The `udf` value `Line.do_render` computes at a pixel `X`, for projected
endpoints `A`, `B`: the cross-product point-to-line squared distance,
overridden by the squared distance to `B` when `XoP > B.norm_sqr() - AoB`,
else by the squared distance to `A` when `XoP < AoB - A.norm_sqr()`. -/
def udf (A B X : Vec2) : ℝ :=
  let P := B.sub A
  let base := (Vec2.cross X P + Vec2.cross B A) ^ 2 / P.norm_sqr
  let XoP := X.dot P
  let AoB := A.dot B
  if XoP > B.norm_sqr - AoB then (B.sub X).norm_sqr
  else if XoP < AoB - A.norm_sqr then (A.sub X).norm_sqr
  else base

/-- The per-pixel write of `Line.do_render`: overwrite with `ts.vec3(1.0)`
when `udf < 0`, `ti.atomic_min` with `ts.vec3(smoothstep(udf, 0, W**2))` when
`udf < W**2`, otherwise leave the pixel unchanged. -/
def pixel (A B X : Vec2) (old : Vec3) : Vec3 :=
  let u := udf A B X
  if u < 0 then Vec3.splat 1
  else if u < W ^ 2 then Vec3.minv old (Vec3.splat (smoothstep u 0 (W ^ 2)))
  else old

/-- The scan region of `Line.do_render`:
`ti.ndrange((M.x, N.x), (M.y, N.y))` with `M = int(floor(min(A, B) - W))` and
`N = int(ceil(max(A, B) + W))` (half-open integer ranges). -/
def inBox (A B : Vec2) (X : ℤ × ℤ) : Prop :=
  let m := A.minv B
  let n := A.maxv B
  ⌊m.x - W⌋ ≤ X.1 ∧ X.1 < ⌈n.x + W⌉ ∧ ⌊m.y - W⌋ ≤ X.2 ∧ X.2 < ⌈n.y + W⌉

instance (A B : Vec2) (X : ℤ × ℤ) : Decidable (inBox A B X) := by
  unfold inBox; infer_instance

/-- `Line.do_render` for one instance, as an image transformer.  `A` and `B`
are the projected endpoints `scene.uncook_coor(scene.camera.untrans_pos(·))`
of `self.a`, `self.b` (the projection is an external collaborator).  Each
scanned pixel is updated independently by `pixel`. -/
def do_render (A B : Vec2) (img : Image) : Image :=
  fun X => if inBox A B X then pixel A B (pixelPt X) (img X) else img X

end Line

namespace Triangle

/-- The antialiasing band constant `W = 0.4` of `Triangle.do_render`. -/
def W : ℝ := 0.4

/-- The normalized signed edge function `AB` of `Triangle.do_render`:
`ts.cross(X, B_A) + BxA` with `B_A = (B - A) * ilB_A` and
`BxA = ts.cross(B, A) * ilB_A`, `ilB_A = 1 / ts.length(B - A)`. -/
def edge (A B X : Vec2) : ℝ :=
  let il := 1 / (B.sub A).length
  Vec2.cross X (Vec2.smul il (B.sub A)) + Vec2.cross B A * il

/-- `udf = max(AB, BC, CA)` of `Triangle.do_render`. -/
def udf (A B C X : Vec2) : ℝ :=
  max (max (edge A B X) (edge B C X)) (edge C A X)

/-- The per-pixel write of `Triangle.do_render`: overwrite with the flat
`color` when `udf < 0`, `ti.atomic_max` with `smoothstep(udf, W, 0) * color`
when `udf < W`, otherwise leave the pixel unchanged. -/
def pixel (A B C : Vec2) (color : Vec3) (X : Vec2) (old : Vec3) : Vec3 :=
  let u := udf A B C X
  if u < 0 then color
  else if u < W then Vec3.maxv old (Vec3.smul (smoothstep u W 0) color)
  else old

/-- The scan region of `Triangle.do_render`:
`M = int(floor(min(A, B, C) - W))`, `N = int(ceil(max(A, B, C) + W))`,
half-open integer ranges. -/
def inBox (A B C : Vec2) (X : ℤ × ℤ) : Prop :=
  let m := (A.minv B).minv C
  let n := (A.maxv B).maxv C
  ⌊m.x - W⌋ ≤ X.1 ∧ X.1 < ⌈n.x + W⌉ ∧ ⌊m.y - W⌋ ≤ X.2 ∧ X.2 < ⌈n.y + W⌉

instance (A B C : Vec2) (X : ℤ × ℤ) : Decidable (inBox A B C X) := by
  unfold inBox; infer_instance

/-- `Triangle.do_render` for one instance, as an image transformer.  `A`,
`B`, `C` are the projected screen coordinates of the vertices and `color` is
the flat shading color computed once per triangle by the external
`scene.opt.render_func` / `scene.opt.pre_process` collaborators. -/
def do_render (A B C : Vec2) (color : Vec3) (img : Image) : Image :=
  fun X =>
    if inBox A B C X then pixel A B C color (pixelPt X) (img X) else img X

end Triangle

/-! ### Fold lemmas for the batched `ObjectRT` scans -/

lemma calc_sdf_cons (a : ℝ) (b : BallInst) (t : List BallInst) (p : Vec3) :
    ObjectRT.calc_sdf a (b :: t) p =
      ObjectRT.calc_sdf (min a (Ball.do_calc_sdf b p)) t p := rfl

lemma calc_sdf_le_init (balls : List BallInst) (p : Vec3) :
    ∀ a : ℝ, ObjectRT.calc_sdf a balls p ≤ a := by
  induction balls with
  | nil => intro a; exact le_of_eq rfl
  | cons b t ih =>
    intro a
    calc ObjectRT.calc_sdf a (b :: t) p
        = ObjectRT.calc_sdf (min a (Ball.do_calc_sdf b p)) t p := rfl
      _ ≤ min a (Ball.do_calc_sdf b p) := ih _
      _ ≤ a := min_le_left _ _

lemma calc_sdf_le_mem (balls : List BallInst) (p : Vec3) :
    ∀ a : ℝ, ∀ b ∈ balls, ObjectRT.calc_sdf a balls p ≤ Ball.do_calc_sdf b p := by
  induction balls with
  | nil => intro a b hb; cases hb
  | cons x t ih =>
    intro a b hb
    rcases List.mem_cons.1 hb with h | h
    · subst h
      calc ObjectRT.calc_sdf a (b :: t) p
          = ObjectRT.calc_sdf (min a (Ball.do_calc_sdf b p)) t p := rfl
        _ ≤ min a (Ball.do_calc_sdf b p) := calc_sdf_le_init _ _ _
        _ ≤ Ball.do_calc_sdf b p := min_le_right _ _
    · exact ih _ b h

lemma calc_sdf_eq_init_or_mem (balls : List BallInst) (p : Vec3) :
    ∀ a : ℝ, ObjectRT.calc_sdf a balls p = a ∨
      ∃ b ∈ balls, ObjectRT.calc_sdf a balls p = Ball.do_calc_sdf b p := by
  induction balls with
  | nil => intro a; exact Or.inl rfl
  | cons x t ih =>
    intro a
    rcases ih (min a (Ball.do_calc_sdf x p)) with h | ⟨b, hb, h⟩
    · rw [calc_sdf_cons, h]
      rcases le_total a (Ball.do_calc_sdf x p) with hle | hle
      · exact Or.inl (min_eq_left hle)
      · exact Or.inr ⟨x, List.mem_cons_self _ _, min_eq_right hle⟩
    · exact Or.inr ⟨b, List.mem_cons_of_mem _ hb, h⟩

/-- The fold of `ObjectRT.intersect` started from an arbitrary running state
(proof scaffolding: `intersect` is this fold started at `(INF, vec3(0.0))`). -/
def ObjectRT.intersectFrom (EPS INF : ℝ) (acc : ℝ × Vec3)
    (balls : List BallInst) (orig dir : Vec3) : ℝ × Vec3 :=
  balls.foldl
    (fun acc b =>
      let r := Ball.do_intersect EPS INF b orig dir
      if r.1 < acc.1 then r else acc)
    acc

lemma intersect_eq_from (EPS INF : ℝ) (balls : List BallInst)
    (orig dir : Vec3) :
    ObjectRT.intersect EPS INF balls orig dir =
      ObjectRT.intersectFrom EPS INF (INF, Vec3.splat 0) balls orig dir := rfl

lemma intersectFrom_cons (EPS INF : ℝ) (acc : ℝ × Vec3) (b : BallInst)
    (t : List BallInst) (orig dir : Vec3) :
    ObjectRT.intersectFrom EPS INF acc (b :: t) orig dir =
      ObjectRT.intersectFrom EPS INF
        (if (Ball.do_intersect EPS INF b orig dir).1 < acc.1 then
          Ball.do_intersect EPS INF b orig dir else acc) t orig dir := rfl

lemma intersectFrom_fst_le_init (EPS INF : ℝ) (balls : List BallInst)
    (orig dir : Vec3) :
    ∀ acc : ℝ × Vec3,
      (ObjectRT.intersectFrom EPS INF acc balls orig dir).1 ≤ acc.1 := by
  induction balls with
  | nil => intro acc; exact le_of_eq rfl
  | cons b t ih =>
    intro acc
    rw [intersectFrom_cons]
    by_cases h : (Ball.do_intersect EPS INF b orig dir).1 < acc.1
    · rw [if_pos h]; exact le_of_lt (lt_of_le_of_lt (ih _) h)
    · rw [if_neg h]; exact ih _

lemma intersectFrom_fst_le_mem (EPS INF : ℝ) (balls : List BallInst)
    (orig dir : Vec3) :
    ∀ acc : ℝ × Vec3, ∀ b ∈ balls,
      (ObjectRT.intersectFrom EPS INF acc balls orig dir).1 ≤
        (Ball.do_intersect EPS INF b orig dir).1 := by
  induction balls with
  | nil => intro acc b hb; cases hb
  | cons x t ih =>
    intro acc b hb
    rcases List.mem_cons.1 hb with h | h
    · subst h
      rw [intersectFrom_cons]
      by_cases hx : (Ball.do_intersect EPS INF b orig dir).1 < acc.1
      · rw [if_pos hx]; exact intersectFrom_fst_le_init _ _ _ _ _ _
      · rw [if_neg hx]
        exact le_trans (intersectFrom_fst_le_init _ _ _ _ _ _) (not_lt.1 hx)
    · rw [intersectFrom_cons]; exact ih _ b h

lemma fin_lt_of_succ_lt_succ {n : ℕ} {k i : Fin n} (h : k.succ < i.succ) :
    k < i := by
  have hv := Fin.lt_def.mp h
  rw [Fin.val_succ, Fin.val_succ] at hv
  exact Fin.lt_def.mpr (Nat.lt_of_succ_lt_succ hv)

lemma intersectFrom_first_min (EPS INF : ℝ) (balls : List BallInst)
    (orig dir : Vec3) :
    ∀ acc : ℝ × Vec3,
      ObjectRT.intersectFrom EPS INF acc balls orig dir = acc ∨
      ((ObjectRT.intersectFrom EPS INF acc balls orig dir).1 < acc.1 ∧
        ∃ i : Fin balls.length,
          ObjectRT.intersectFrom EPS INF acc balls orig dir =
            Ball.do_intersect EPS INF (balls.get i) orig dir ∧
          ∀ j : Fin balls.length, j < i →
            (ObjectRT.intersectFrom EPS INF acc balls orig dir).1 <
              (Ball.do_intersect EPS INF (balls.get j) orig dir).1) := by
  induction balls with
  | nil => intro acc; exact Or.inl rfl
  | cons x t ih =>
    intro acc
    rw [intersectFrom_cons]
    by_cases hx : (Ball.do_intersect EPS INF x orig dir).1 < acc.1
    · rw [if_pos hx]
      rcases ih (Ball.do_intersect EPS INF x orig dir) with h | ⟨hlt, i, hi, hj⟩
      · refine Or.inr ⟨by rw [h]; exact hx, ⟨0, Nat.succ_pos _⟩, by rw [h]; rfl, ?_⟩
        intro j hj
        exact absurd (Fin.lt_def.mp hj) (Nat.not_lt_zero _)
      · refine Or.inr ⟨lt_trans hlt hx, i.succ, hi, ?_⟩
        intro j hjlt
        refine Fin.cases ?_ ?_ j hjlt
        · intro _; exact hlt
        · intro k hk
          exact hj k (fin_lt_of_succ_lt_succ hk)
    · rw [if_neg hx]
      rcases ih acc with h | ⟨hlt, i, hi, hj⟩
      · exact Or.inl h
      · refine Or.inr ⟨hlt, i.succ, hi, ?_⟩
        intro j hjlt
        refine Fin.cases ?_ ?_ j hjlt
        · intro _; exact lt_of_lt_of_le hlt (not_lt.1 hx)
        · intro k hk
          exact hj k (fin_lt_of_succ_lt_succ hk)

lemma intersectFrom_no_update (EPS INF : ℝ) (balls : List BallInst)
    (orig dir : Vec3) :
    ∀ acc : ℝ × Vec3,
      (∀ b ∈ balls, ¬ (Ball.do_intersect EPS INF b orig dir).1 < acc.1) →
      ObjectRT.intersectFrom EPS INF acc balls orig dir = acc := by
  induction balls with
  | nil => intro acc _; rfl
  | cons x t ih =>
    intro acc h
    rw [intersectFrom_cons, if_neg (h x (List.mem_cons_self _ _))]
    exact ih acc fun b hb => h b (List.mem_cons_of_mem _ hb)

/-! ### Claim theorems -/

/-- C1: for every batch of Balls and every point `p`, `calc_sdf(p)` returns
the minimum over all instances `i` of the instance signed distance
`|pos_i - p| - radius_i` (the batch is nonempty and, since `INF` is the
designated sentinel, every instance distance is at most `INF`). -/
theorem calc_sdf_min_over_instances (INF : ℝ) (balls : List BallInst)
    (p : Vec3) (hne : balls ≠ [])
    (hle : ∀ b ∈ balls, (Vec3.sub b.pos p).norm - b.radius ≤ INF) :
    ∃ b ∈ balls,
      ObjectRT.calc_sdf INF balls p = (Vec3.sub b.pos p).norm - b.radius ∧
      ∀ b2 ∈ balls,
        ObjectRT.calc_sdf INF balls p ≤ (Vec3.sub b2.pos p).norm - b2.radius := by
  have hsdf : ∀ b : BallInst,
      Ball.do_calc_sdf b p = (Vec3.sub b.pos p).norm - b.radius := fun b => rfl
  rcases calc_sdf_eq_init_or_mem balls p INF with h | ⟨b, hb, h⟩
  · rcases List.exists_mem_of_ne_nil balls hne with ⟨b0, hb0⟩
    refine ⟨b0, hb0, ?_, ?_⟩
    · have h1 : ObjectRT.calc_sdf INF balls p ≤ Ball.do_calc_sdf b0 p :=
        calc_sdf_le_mem balls p INF b0 hb0

      have h2 : Ball.do_calc_sdf b0 p ≤ INF := by rw [hsdf]; exact hle b0 hb0
      rw [← hsdf]
      exact le_antisymm h1 (by rw [h]; exact h2)
    · intro b2 hb2
      rw [← hsdf]
      exact calc_sdf_le_mem balls p INF b2 hb2
  · refine ⟨b, hb, by rw [← hsdf]; exact h, ?_⟩
    intro b2 hb2
    rw [← hsdf]
    exact calc_sdf_le_mem balls p INF b2 hb2

/-- Witness for C1 at a concrete batch: one ball at the origin with radius 1,
queried at the origin. -/
theorem calc_sdf_min_over_instances_spot :
    ∃ b ∈ [({ pos := ⟨0, 0, 0⟩, radius := 1 } : BallInst)],
      ObjectRT.calc_sdf 1000 [{ pos := ⟨0, 0, 0⟩, radius := 1 }] ⟨0, 0, 0⟩ =
        (Vec3.sub b.pos ⟨0, 0, 0⟩).norm - b.radius ∧
      ∀ b2 ∈ [({ pos := ⟨0, 0, 0⟩, radius := 1 } : BallInst)],
        ObjectRT.calc_sdf 1000 [{ pos := ⟨0, 0, 0⟩, radius := 1 }] ⟨0, 0, 0⟩ ≤
          (Vec3.sub b2.pos ⟨0, 0, 0⟩).norm - b2.radius :=
  calc_sdf_min_over_instances 1000 _ _ (by simp)
    (by
      intro b hb
      rw [List.mem_singleton] at hb
      subst hb
      show Real.sqrt (Vec3.norm_sqr (Vec3.sub ⟨0, 0, 0⟩ ⟨0, 0, 0⟩)) - 1 ≤ 1000
      norm_num [Vec3.sub, Vec3.norm_sqr])

/-- C2: for a single Ball instance and a ray `(orig, dir)`, `do_intersect`
returns distance `INF` whenever `det = b² - |op|² + radius² ≤ 0` (a tangent
ray with `det = 0` is a miss); otherwise the near root `b - √det` if it
exceeds `EPS`, else the far root `b + √det` if that exceeds `EPS`, else
`INF`. -/
theorem do_intersect_root_selection (EPS INF : ℝ) (bl : BallInst)
    (orig dir : Vec3) :
    (Ball.do_intersect EPS INF bl orig dir).1 =
      (let op := Vec3.sub bl.pos orig
       let b := op.dot dir
       let det := b ^ 2 - op.norm_sqr + bl.radius ^ 2
       if det ≤ 0 then INF
       else if b - Real.sqrt det > EPS then b - Real.sqrt det
       else if b + Real.sqrt det > EPS then b + Real.sqrt det
       else INF) := by
  unfold Ball.do_intersect
  dsimp only
  split_ifs <;> first | rfl | linarith

/-- C3: the batch-level `intersect` never exceeds `INF`, is a lower bound of
every instance's root, and is either the untouched initial state
`(INF, vec3(0.0))` (no accepted root) or the result of the first instance
attaining the minimal root, every earlier instance having a strictly larger
root (first minimal value wins). -/
theorem intersect_min_accepted_first (EPS INF : ℝ) (balls : List BallInst)
    (orig dir : Vec3) :
    (ObjectRT.intersect EPS INF balls orig dir).1 ≤ INF ∧
    (∀ b ∈ balls,
      (ObjectRT.intersect EPS INF balls orig dir).1 ≤
        (Ball.do_intersect EPS INF b orig dir).1) ∧
    (ObjectRT.intersect EPS INF balls orig dir = (INF, Vec3.splat 0) ∨
      ∃ i : Fin balls.length,
        ObjectRT.intersect EPS INF balls orig dir =
          Ball.do_intersect EPS INF (balls.get i) orig dir ∧
        ∀ j : Fin balls.length, j < i →
          (ObjectRT.intersect EPS INF balls orig dir).1 <
            (Ball.do_intersect EPS INF (balls.get j) orig dir).1) := by
  rw [intersect_eq_from]
  refine ⟨intersectFrom_fst_le_init EPS INF balls orig dir (INF, Vec3.splat 0),
    fun b hb => intersectFrom_fst_le_mem EPS INF balls orig dir _ b hb, ?_⟩
  rcases intersectFrom_first_min EPS INF balls orig dir (INF, Vec3.splat 0)
    with h | ⟨_, i, hi, hj⟩
  · exact Or.inl h
  · exact Or.inr ⟨i, hi, hj⟩

/-- Witness for C3 at a concrete two-ball batch and ray. -/
theorem intersect_min_accepted_first_spot :
    (ObjectRT.intersect (1 / 100) 1000000
        [⟨⟨3, 0, 10⟩, 5⟩, ⟨⟨0, 0, 20⟩, 2⟩] ⟨0, 0, 0⟩ ⟨0, 0, 1⟩).1 ≤ 1000000 ∧
    (∀ b ∈ [({ pos := ⟨3, 0, 10⟩, radius := 5 } : BallInst),
        { pos := ⟨0, 0, 20⟩, radius := 2 }],
      (ObjectRT.intersect (1 / 100) 1000000
          [⟨⟨3, 0, 10⟩, 5⟩, ⟨⟨0, 0, 20⟩, 2⟩] ⟨0, 0, 0⟩ ⟨0, 0, 1⟩).1 ≤
        (Ball.do_intersect (1 / 100) 1000000 b ⟨0, 0, 0⟩ ⟨0, 0, 1⟩).1) ∧
    (ObjectRT.intersect (1 / 100) 1000000
        [⟨⟨3, 0, 10⟩, 5⟩, ⟨⟨0, 0, 20⟩, 2⟩] ⟨0, 0, 0⟩ ⟨0, 0, 1⟩ =
          (1000000, Vec3.splat 0) ∨
      ∃ i : Fin 2,
        ObjectRT.intersect (1 / 100) 1000000
            [⟨⟨3, 0, 10⟩, 5⟩, ⟨⟨0, 0, 20⟩, 2⟩] ⟨0, 0, 0⟩ ⟨0, 0, 1⟩ =
          Ball.do_intersect (1 / 100) 1000000
            ([({ pos := ⟨3, 0, 10⟩, radius := 5 } : BallInst),
              { pos := ⟨0, 0, 20⟩, radius := 2 }].get i) ⟨0, 0, 0⟩ ⟨0, 0, 1⟩ ∧
        ∀ j : Fin 2, j < i →
          (ObjectRT.intersect (1 / 100) 1000000
              [⟨⟨3, 0, 10⟩, 5⟩, ⟨⟨0, 0, 20⟩, 2⟩] ⟨0, 0, 0⟩ ⟨0, 0, 1⟩).1 <
            (Ball.do_intersect (1 / 100) 1000000
              ([({ pos := ⟨3, 0, 10⟩, radius := 5 } : BallInst),
                { pos := ⟨0, 0, 20⟩, radius := 2 }].get j) ⟨0, 0, 0⟩
              ⟨0, 0, 1⟩).1) :=
  intersect_min_accepted_first (1 / 100) 1000000
    [⟨⟨3, 0, 10⟩, 5⟩, ⟨⟨0, 0, 20⟩, 2⟩] ⟨0, 0, 0⟩ ⟨0, 0, 1⟩

/-- C10: when every instance of the batch misses (per-instance distance
`INF`), the batch-level `intersect` returns exactly the initial state
`(INF, vec3(0.0))`: the zero normal accumulator is exposed at the public
interface. -/
theorem intersect_total_miss (EPS INF : ℝ) (balls : List BallInst)
    (orig dir : Vec3)
    (h : ∀ b ∈ balls, (Ball.do_intersect EPS INF b orig dir).1 = INF) :
    ObjectRT.intersect EPS INF balls orig dir = (INF, Vec3.splat 0) := by
  rw [intersect_eq_from]
  exact intersectFrom_no_update EPS INF balls orig dir _
    (fun b hb => by rw [h b hb]; exact lt_irrefl INF)

/-- Witness for C10: a single ball the ray never meets (`det = -24 < 0`). -/
theorem intersect_total_miss_spot :
    ObjectRT.intersect (1 / 100) 1000000 [⟨⟨0, 0, 5⟩, 1⟩] ⟨0, 0, 0⟩ ⟨1, 0, 0⟩ =
      (1000000, Vec3.splat 0) :=
  intersect_total_miss (1 / 100) 1000000 _ _ _
    (by
      intro b hb
      rw [List.mem_singleton] at hb
      subst hb
      show (Ball.do_intersect (1 / 100) 1000000 ⟨⟨0, 0, 5⟩, 1⟩ ⟨0, 0, 0⟩
        ⟨1, 0, 0⟩).1 = 1000000
      norm_num [Ball.do_intersect, Vec3.sub, Vec3.dot, Vec3.norm_sqr])

/-- Helper: evaluating a real square root at a perfect square. -/
lemma sqrt_eval {a b : ℝ} (hb : 0 ≤ b) (h : b ^ 2 = a) : Real.sqrt a = b := by
  rw [← h]; exact Real.sqrt_sq hb

/-- The hit of the ray `(0, e_z)` against the ball at `(3,0,10)` with radius
5: `det = 16`, near root `t = 6`, normal `normalize((0,0,6)-(3,0,10))`. -/
lemma do_intersect_eval_left :
    Ball.do_intersect (1 / 100) 1000000 ⟨⟨3, 0, 10⟩, 5⟩ ⟨0, 0, 0⟩ ⟨0, 0, 1⟩ =
      (6, ⟨-(3 / 5), 0, -(4 / 5)⟩) := by
  have h16 : Real.sqrt (16 : ℝ) = 4 := sqrt_eval (by norm_num) (by norm_num)
  have h25 : Real.sqrt (25 : ℝ) = 5 := sqrt_eval (by norm_num) (by norm_num)
  unfold Ball.do_intersect
  norm_num [Vec3.sub, Vec3.dot, Vec3.norm_sqr, h16, Vec3.normalize, Vec3.norm,
    Vec3.smul, h25, Vec3.mk.injEq]

/-- The hit of the ray `(0, e_z)` against the ball at `(0,0,20)` with radius
2: `det = 4`, near root `t = 18`, normal `(0,0,-1)`. -/
lemma do_intersect_eval_right :
    Ball.do_intersect (1 / 100) 1000000 ⟨⟨0, 0, 20⟩, 2⟩ ⟨0, 0, 0⟩ ⟨0, 0, 1⟩ =
      (18, ⟨0, 0, -1⟩) := by
  have h4 : Real.sqrt (4 : ℝ) = 2 := sqrt_eval (by norm_num) (by norm_num)
  unfold Ball.do_intersect
  norm_num [Vec3.sub, Vec3.dot, Vec3.norm_sqr, h4, Vec3.normalize, Vec3.norm,
    Vec3.smul, Vec3.mk.injEq]

/-- The two-ball batch: the first instance wins with distance 6. -/
lemma intersect_eval_pair :
    ObjectRT.intersect (1 / 100) 1000000
        [⟨⟨3, 0, 10⟩, 5⟩, ⟨⟨0, 0, 20⟩, 2⟩] ⟨0, 0, 0⟩ ⟨0, 0, 1⟩ =
      (6, ⟨-(3 / 5), 0, -(4 / 5)⟩) := by
  norm_num [ObjectRT.intersect, do_intersect_eval_left, do_intersect_eval_right]

/-- C4 counterexample: for the two-ball batch hit at distance `t = 6`, the
returned normal equals `normalize(dir·t − op)` taken with the winning
instance's own `op = (3,0,10) − orig`, and differs from `normalize(dir·t − op)`
taken with the other (later-iterated) instance's `op = (0,0,20) − orig` — so
the normal is a per-instance quantity derived from the winning instance, not a
batch-level one. -/
theorem intersect_normal_not_batch_level_cex :
    (ObjectRT.intersect (1 / 100) 1000000
        [⟨⟨3, 0, 10⟩, 5⟩, ⟨⟨0, 0, 20⟩, 2⟩] ⟨0, 0, 0⟩ ⟨0, 0, 1⟩).2 =
      Vec3.normalize ((Vec3.smul 6 ⟨0, 0, 1⟩).sub
        (Vec3.sub ⟨3, 0, 10⟩ ⟨0, 0, 0⟩)) ∧
    (ObjectRT.intersect (1 / 100) 1000000
        [⟨⟨3, 0, 10⟩, 5⟩, ⟨⟨0, 0, 20⟩, 2⟩] ⟨0, 0, 0⟩ ⟨0, 0, 1⟩).2 ≠
      Vec3.normalize ((Vec3.smul 6 ⟨0, 0, 1⟩).sub
        (Vec3.sub ⟨0, 0, 20⟩ ⟨0, 0, 0⟩)) := by
  have h25 : Real.sqrt (25 : ℝ) = 5 := sqrt_eval (by norm_num) (by norm_num)
  have h196 : Real.sqrt (196 : ℝ) = 14 := sqrt_eval (by norm_num) (by norm_num)
  rw [intersect_eval_pair]
  constructor
  · norm_num [Vec3.smul, Vec3.sub, Vec3.normalize, Vec3.norm, Vec3.norm_sqr,
      h25, Vec3.mk.injEq]
  · norm_num [Vec3.smul, Vec3.sub, Vec3.normalize, Vec3.norm, Vec3.norm_sqr,
      h196, Vec3.mk.injEq]

/-- C4 amended: the normal of `Ball.do_intersect` is `normalize(dir·ret − op)`
computed unconditionally from that instance's own `op = pos − orig` and its
own distance `ret`, and the batch-level `intersect` is either the untouched
initial state or exactly one winning instance's `(distance, normal)` pair —
so the returned normal is the winning instance's, built from its own `op`. -/
theorem do_intersect_normal_own_op (EPS INF : ℝ) (orig dir : Vec3) :
    (∀ bl : BallInst,
      (Ball.do_intersect EPS INF bl orig dir).2 =
        Vec3.normalize
          ((Vec3.smul (Ball.do_intersect EPS INF bl orig dir).1 dir).sub
            (Vec3.sub bl.pos orig))) ∧
    (∀ balls : List BallInst,
      ObjectRT.intersect EPS INF balls orig dir = (INF, Vec3.splat 0) ∨
        ∃ i : Fin balls.length,
          ObjectRT.intersect EPS INF balls orig dir =
            Ball.do_intersect EPS INF (balls.get i) orig dir) := by
  constructor
  · intro bl; rfl
  · intro balls
    rw [intersect_eq_from]
    rcases intersectFrom_first_min EPS INF balls orig dir (INF, Vec3.splat 0)
      with h | ⟨_, i, hi, _⟩
    · exact Or.inl h
    · exact Or.inr ⟨i, hi⟩

/-- C6: every pixel scanned by `Line.do_render` (half-width `W = 1`) is
overwritten with opaque white when `udf < 0`, merged by per-channel minimum
with `vec3(smoothstep(udf, 0, W²))` when `udf < W²`, and left unchanged
otherwise. -/
theorem line_render_pixel_rule (A B : Vec2) (img : Image) (X : ℤ × ℤ)
    (h : Line.inBox A B X) :
    Line.do_render A B img X =
      (let u := Line.udf A B (pixelPt X)
       if u < 0 then ⟨1, 1, 1⟩
       else if u < 1 ^ 2 then
         ⟨min (img X).x (smoothstep u 0 (1 ^ 2)),
          min (img X).y (smoothstep u 0 (1 ^ 2)),
          min (img X).z (smoothstep u 0 (1 ^ 2))⟩
       else img X) := by
  unfold Line.do_render
  rw [if_pos h]
  unfold Line.pixel Line.W
  rfl

/-- Witness for C6: the horizontal segment from `(0,0)` to `(10,0)` scans the
pixel `(5,0)`. -/
theorem line_render_pixel_rule_spot :
    Line.inBox ⟨0, 0⟩ ⟨10, 0⟩ (5, 0) ∧
    Line.do_render ⟨0, 0⟩ ⟨10, 0⟩ (fun _ => Vec3.splat 0) (5, 0) =
      (let u := Line.udf ⟨0, 0⟩ ⟨10, 0⟩ (pixelPt (5, 0))
       if u < 0 then ⟨1, 1, 1⟩
       else if u < 1 ^ 2 then
         ⟨min (Vec3.splat 0).x (smoothstep u 0 (1 ^ 2)),
          min (Vec3.splat 0).y (smoothstep u 0 (1 ^ 2)),
          min (Vec3.splat 0).z (smoothstep u 0 (1 ^ 2))⟩
       else Vec3.splat 0) := by
  have hbox : Line.inBox ⟨0, 0⟩ ⟨10, 0⟩ (5, 0) := by
    unfold Line.inBox Line.W
    refine ⟨?_, ?_, ?_, ?_⟩ <;>
      norm_num [Vec2.minv, Vec2.maxv, Int.floor_le_iff, Int.lt_ceil]
  exact ⟨hbox, line_render_pixel_rule ⟨0, 0⟩ ⟨10, 0⟩ (fun _ => Vec3.splat 0)
    (5, 0) hbox⟩

set_option maxHeartbeats 2000000 in
/-- C7: for a non-degenerate segment `A B`, the `udf` of `Line.do_render` is
the squared Euclidean distance from `X` to the segment: a lower bound of the
squared distance to every segment point `A + s·(B - A)`, `s ∈ [0,1]`, and
attained at some such point. -/
theorem line_udf_is_sq_dist_to_segment (A B X : Vec2) (h : A ≠ B) :
    (∀ s : ℝ, 0 ≤ s → s ≤ 1 →
      Line.udf A B X ≤ ((A.add (Vec2.smul s (B.sub A))).sub X).norm_sqr) ∧
    (∃ s : ℝ, 0 ≤ s ∧ s ≤ 1 ∧
      Line.udf A B X = ((A.add (Vec2.smul s (B.sub A))).sub X).norm_sqr) := by
  obtain ⟨ax, ay⟩ := A
  obtain ⟨bx, byv⟩ := B
  obtain ⟨xx, xy⟩ := X
  have hq : (0 : ℝ) < (bx - ax) * (bx - ax) + (byv - ay) * (byv - ay) := by
    rcases lt_or_eq_of_le
        (add_nonneg (mul_self_nonneg (bx - ax)) (mul_self_nonneg (byv - ay)))
        with hlt | heq
    · exact hlt
    · exfalso
      apply h
      have h1 : bx - ax = 0 := by
        nlinarith [sq_nonneg (bx - ax), sq_nonneg (byv - ay)]
      have h2 : byv - ay = 0 := by
        nlinarith [sq_nonneg (bx - ax), sq_nonneg (byv - ay)]
      simp only [Vec2.mk.injEq]
      constructor <;> linarith
  simp only [Line.udf, Vec2.sub, Vec2.dot, Vec2.cross, Vec2.norm_sqr,
    Vec2.add, Vec2.smul]
  split_ifs with hb1 hb2
  · -- projection beyond B: udf is the squared distance to B
    have hd : (bx - ax) * (bx - ax) + (byv - ay) * (byv - ay) <
        (xx - ax) * (bx - ax) + (xy - ay) * (byv - ay) := by
      ring_nf
      ring_nf at hb1
      linarith
    constructor
    · intro s hs0 hs1
      nlinarith [mul_nonneg (by linarith : (0 : ℝ) ≤ 1 - s)
        (by nlinarith :
          (0 : ℝ) ≤
            2 * ((xx - ax) * (bx - ax) + (xy - ay) * (byv - ay)) -
              (s + 1) *
                ((bx - ax) * (bx - ax) + (byv - ay) * (byv - ay)))]
    · exact ⟨1, by norm_num, by norm_num, by ring⟩
  · -- projection beyond A: udf is the squared distance to A
    have hd : (xx - ax) * (bx - ax) + (xy - ay) * (byv - ay) < 0 := by
      ring_nf
      ring_nf at hb2
      linarith
    constructor
    · intro s hs0 hs1
      nlinarith [mul_nonneg hs0
          (by linarith :
            (0 : ℝ) ≤ -((xx - ax) * (bx - ax) + (xy - ay) * (byv - ay))),
        mul_nonneg (mul_nonneg hs0 hs0) (le_of_lt hq)]
    · exact ⟨0, le_refl _, by norm_num, by ring⟩
  · -- projection inside the segment: the point-to-line formula
    have h1' : (xx - ax) * (bx - ax) + (xy - ay) * (byv - ay) ≤
        (bx - ax) * (bx - ax) + (byv - ay) * (byv - ay) := by
      push_neg at hb1
      ring_nf
      ring_nf at hb1
      linarith
    have h2' : 0 ≤ (xx - ax) * (bx - ax) + (xy - ay) * (byv - ay) := by
      push_neg at hb2
      ring_nf
      ring_nf at hb2
      linarith
    constructor
    · intro s hs0 hs1
      rw [div_le_iff₀ hq]
      nlinarith [sq_nonneg
        (s * ((bx - ax) * (bx - ax) + (byv - ay) * (byv - ay)) -
          ((xx - ax) * (bx - ax) + (xy - ay) * (byv - ay)))]
    · refine ⟨((xx - ax) * (bx - ax) + (xy - ay) * (byv - ay)) /
          ((bx - ax) * (bx - ax) + (byv - ay) * (byv - ay)),
        div_nonneg h2' (le_of_lt hq), (div_le_one hq).2 h1', ?_⟩
      field_simp
      ring

/-- Witness for C7: the segment from `(0,0)` to `(10,0)` and the point
`(5,3)`. -/
theorem line_udf_is_sq_dist_to_segment_spot :
    (∀ s : ℝ, 0 ≤ s → s ≤ 1 →
      Line.udf ⟨0, 0⟩ ⟨10, 0⟩ ⟨5, 3⟩ ≤
        ((Vec2.add ⟨0, 0⟩
            (Vec2.smul s (Vec2.sub ⟨10, 0⟩ ⟨0, 0⟩))).sub ⟨5, 3⟩).norm_sqr) ∧
    (∃ s : ℝ, 0 ≤ s ∧ s ≤ 1 ∧
      Line.udf ⟨0, 0⟩ ⟨10, 0⟩ ⟨5, 3⟩ =
        ((Vec2.add ⟨0, 0⟩
            (Vec2.smul s (Vec2.sub ⟨10, 0⟩ ⟨0, 0⟩))).sub ⟨5, 3⟩).norm_sqr) :=
  line_udf_is_sq_dist_to_segment ⟨0, 0⟩ ⟨10, 0⟩ ⟨5, 3⟩
    (by
      intro hcon
      rw [Vec2.mk.injEq] at hcon
      exact absurd hcon.1 (by norm_num))

/-- The normalized edge function as a single quotient. -/
lemma edge_div (A B X : Vec2) :
    Triangle.edge A B X =
      (Vec2.cross X (B.sub A) + Vec2.cross B A) / (B.sub A).length := by
  unfold Triangle.edge Vec2.cross Vec2.smul
  ring

/-- All three edge functions of the screen triangle `(0,0), (10,0), (0,10)`
are negative at the pixel `(2,2)`. -/
lemma tri_edges_neg_at_22 :
    Triangle.edge ⟨0, 0⟩ ⟨10, 0⟩ ⟨2, 2⟩ < 0 ∧
    Triangle.edge ⟨10, 0⟩ ⟨0, 10⟩ ⟨2, 2⟩ < 0 ∧
    Triangle.edge ⟨0, 10⟩ ⟨0, 0⟩ ⟨2, 2⟩ < 0 := by
  have h100 : Real.sqrt (100 : ℝ) = 10 := sqrt_eval (by norm_num) (by norm_num)
  have h200 : (0 : ℝ) < Real.sqrt 200 := Real.sqrt_pos.mpr (by norm_num)
  refine ⟨?_, ?_, ?_⟩
  · rw [edge_div]
    norm_num [Vec2.cross, Vec2.sub, Vec2.length, Vec2.norm_sqr, h100]
  · rw [edge_div]
    have hnum : Vec2.cross ⟨2, 2⟩ (Vec2.sub ⟨0, 10⟩ ⟨10, 0⟩) +
        Vec2.cross ⟨0, 10⟩ ⟨10, 0⟩ = -60 := by
      norm_num [Vec2.cross, Vec2.sub]
    have hden : (Vec2.sub (⟨0, 10⟩ : Vec2) ⟨10, 0⟩).length = Real.sqrt 200 := by
      norm_num [Vec2.sub, Vec2.length, Vec2.norm_sqr]
    rw [hnum, hden]
    exact div_neg_of_neg_of_pos (by norm_num) h200
  · rw [edge_div]
    norm_num [Vec2.cross, Vec2.sub, Vec2.length, Vec2.norm_sqr, h100]

/-- The pixel `(2,2)` lies in the scan box of that triangle. -/
lemma tri_inBox_22 : Triangle.inBox ⟨0, 0⟩ ⟨10, 0⟩ ⟨0, 10⟩ (2, 2) := by
  unfold Triangle.inBox Triangle.W
  refine ⟨?_, ?_, ?_, ?_⟩ <;>
    norm_num [Vec2.minv, Vec2.maxv, Int.floor_le_iff, Int.lt_ceil]

/-- The pixel `(20,20)` lies outside the scan box of that triangle. -/
lemma tri_notin_2020 : ¬ Triangle.inBox ⟨0, 0⟩ ⟨10, 0⟩ ⟨0, 10⟩ (20, 20) := by
  unfold Triangle.inBox Triangle.W
  intro hcon
  have hx := hcon.2.1
  rw [Int.lt_ceil] at hx
  norm_num [Vec2.maxv] at hx

/-- At `(2,2)` the write branch is the full overwrite with `color`. -/
lemma tri_pixel_22 (color old : Vec3) :
    Triangle.pixel ⟨0, 0⟩ ⟨10, 0⟩ ⟨0, 10⟩ color ⟨2, 2⟩ old = color := by
  obtain ⟨h1, h2, h3⟩ := tri_edges_neg_at_22
  unfold Triangle.pixel Triangle.udf
  rw [if_pos (max_lt (max_lt h1 h2) h3)]

lemma tri_do_render_22 (color : Vec3) (img : Image) :
    Triangle.do_render ⟨0, 0⟩ ⟨10, 0⟩ ⟨0, 10⟩ color img (2, 2) = color := by
  unfold Triangle.do_render
  rw [if_pos tri_inBox_22]
  have hpt : pixelPt (2, 2) = (⟨2, 2⟩ : Vec2) := by
    unfold pixelPt
    norm_num
  rw [hpt, tri_pixel_22]

lemma tri_do_render_2020 (color : Vec3) (img : Image) :
    Triangle.do_render ⟨0, 0⟩ ⟨10, 0⟩ ⟨0, 10⟩ color img (20, 20) =
      img (20, 20) := by
  unfold Triangle.do_render
  rw [if_neg tri_notin_2020]

/-- C5: every pixel scanned by `Triangle.do_render` (with `W = 0.4`) is
overwritten with the flat triangle color when `udf < 0`, merged by
per-channel maximum with `smoothstep(udf, W, 0) * color` when `udf < W`, and
not written otherwise; for screen coordinates `A = (0,0)`, `B = (10,0)`,
`C = (0,10)` the pixel `(2,2)` has all three edge functions negative and
receives the flat color, and the pixel `(20,20)` receives no write. -/
theorem triangle_render_pixel_rule :
    (∀ (A B C : Vec2) (color : Vec3) (img : Image) (X : ℤ × ℤ),
      Triangle.inBox A B C X →
      Triangle.do_render A B C color img X =
        (let u := Triangle.udf A B C (pixelPt X)
         if u < 0 then color
         else if u < 0.4 then
           ⟨max (img X).x (smoothstep u 0.4 0 * color.x),
            max (img X).y (smoothstep u 0.4 0 * color.y),
            max (img X).z (smoothstep u 0.4 0 * color.z)⟩
         else img X)) ∧
    (Triangle.edge ⟨0, 0⟩ ⟨10, 0⟩ ⟨2, 2⟩ < 0 ∧
     Triangle.edge ⟨10, 0⟩ ⟨0, 10⟩ ⟨2, 2⟩ < 0 ∧
     Triangle.edge ⟨0, 10⟩ ⟨0, 0⟩ ⟨2, 2⟩ < 0) ∧
    (∀ (color : Vec3) (img : Image),
      Triangle.do_render ⟨0, 0⟩ ⟨10, 0⟩ ⟨0, 10⟩ color img (2, 2) = color) ∧
    (∀ (color : Vec3) (img : Image),
      Triangle.do_render ⟨0, 0⟩ ⟨10, 0⟩ ⟨0, 10⟩ color img (20, 20) =
        img (20, 20)) := by
  refine ⟨?_, tri_edges_neg_at_22, tri_do_render_22, tri_do_render_2020⟩
  intro A B C color img X h
  unfold Triangle.do_render
  rw [if_pos h]
  unfold Triangle.pixel Triangle.W
  rfl

/-- Witness for C5: the scanned pixel `(2,2)` of the concrete triangle. -/
theorem triangle_render_pixel_rule_spot :
    Triangle.inBox ⟨0, 0⟩ ⟨10, 0⟩ ⟨0, 10⟩ (2, 2) ∧
    Triangle.do_render ⟨0, 0⟩ ⟨10, 0⟩ ⟨0, 10⟩ ⟨1, 0, 0⟩
        (fun _ => Vec3.splat 0) (2, 2) =
      (let u := Triangle.udf ⟨0, 0⟩ ⟨10, 0⟩ ⟨0, 10⟩ (pixelPt (2, 2))
       if u < 0 then (⟨1, 0, 0⟩ : Vec3)
       else if u < 0.4 then
         ⟨max (Vec3.splat 0).x (smoothstep u 0.4 0 * (1 : ℝ)),
          max (Vec3.splat 0).y (smoothstep u 0.4 0 * (0 : ℝ)),
          max (Vec3.splat 0).z (smoothstep u 0.4 0 * (0 : ℝ))⟩
       else Vec3.splat 0) :=
  ⟨tri_inBox_22,
    triangle_render_pixel_rule.1 ⟨0, 0⟩ ⟨10, 0⟩ ⟨0, 10⟩ ⟨1, 0, 0⟩
      (fun _ => Vec3.splat 0) (2, 2) tri_inBox_22⟩

lemma Vec2.norm_sqr_nonneg (v : Vec2) : 0 ≤ v.norm_sqr :=
  add_nonneg (mul_self_nonneg _) (mul_self_nonneg _)

/-- In exact arithmetic the `udf` of `Line.do_render` is never negative: it
is a square divided by a squared norm, or a squared norm. -/
lemma line_udf_nonneg (A B X : Vec2) : 0 ≤ Line.udf A B X := by
  unfold Line.udf
  dsimp only
  split_ifs
  · exact Vec2.norm_sqr_nonneg _
  · exact Vec2.norm_sqr_nonneg _
  · exact div_nonneg (sq_nonneg _) (Vec2.norm_sqr_nonneg _)

/-- Since `udf ≥ 0`, the per-pixel write of `Line.do_render` is always the
per-channel minimum merge (or no write). -/
lemma line_pixel_as_merge (A B X : Vec2) (v : Vec3) :
    Line.pixel A B X v =
      if Line.udf A B X < 1 then
        Vec3.minv v (Vec3.splat (smoothstep (Line.udf A B X) 0 1))
      else v := by
  unfold Line.pixel Line.W
  rw [if_neg (not_lt.2 (line_udf_nonneg A B X)), one_pow]

lemma Vec3_minv_right_comm (v a b : Vec3) :
    Vec3.minv (Vec3.minv v a) b = Vec3.minv (Vec3.minv v b) a := by
  simp only [Vec3.minv, Vec3.mk.injEq]
  exact ⟨min_right_comm _ _ _, min_right_comm _ _ _, min_right_comm _ _ _⟩

lemma Vec3_maxv_right_comm (v a b : Vec3) :
    Vec3.maxv (Vec3.maxv v a) b = Vec3.maxv (Vec3.maxv v b) a := by
  simp only [Vec3.maxv, Vec3.mk.injEq]
  exact ⟨sup_right_comm _ _ _, sup_right_comm _ _ _, sup_right_comm _ _ _⟩

lemma line_pixel_comm (A B A2 B2 X : Vec2) (v : Vec3) :
    Line.pixel A2 B2 X (Line.pixel A B X v) =
      Line.pixel A B X (Line.pixel A2 B2 X v) := by
  rw [line_pixel_as_merge, line_pixel_as_merge, line_pixel_as_merge,
    line_pixel_as_merge]
  split_ifs <;> first | rfl | rw [Vec3_minv_right_comm]

lemma tri_pixel_comm (A B C A2 B2 C2 : Vec2) (c1 c2 : Vec3) (X : Vec2)
    (v : Vec3) (h1 : ¬ Triangle.udf A B C X < 0)
    (h2 : ¬ Triangle.udf A2 B2 C2 X < 0) :
    Triangle.pixel A2 B2 C2 c2 X (Triangle.pixel A B C c1 X v) =
      Triangle.pixel A B C c1 X (Triangle.pixel A2 B2 C2 c2 X v) := by
  unfold Triangle.pixel
  rw [if_neg h1, if_neg h2, if_neg h2, if_neg h1]
  split_ifs <;> first | rfl | rw [Vec3_maxv_right_comm]

/-- C8 counterexample: rendering the same filled triangle with two different
colors in the two orders gives different images at the interior pixel
`(2,2)` — the fully-inside branch is an unconditional overwrite, so filled
triangles do not compose order-independently. -/
theorem triangle_overwrite_order_dependent_cex :
    Triangle.do_render ⟨0, 0⟩ ⟨10, 0⟩ ⟨0, 10⟩ ⟨0, 1, 0⟩
        (Triangle.do_render ⟨0, 0⟩ ⟨10, 0⟩ ⟨0, 10⟩ ⟨1, 0, 0⟩
          (fun _ => Vec3.splat 0)) (2, 2) ≠
      Triangle.do_render ⟨0, 0⟩ ⟨10, 0⟩ ⟨0, 10⟩ ⟨1, 0, 0⟩
        (Triangle.do_render ⟨0, 0⟩ ⟨10, 0⟩ ⟨0, 10⟩ ⟨0, 1, 0⟩
          (fun _ => Vec3.splat 0)) (2, 2) := by
  rw [tri_do_render_22, tri_do_render_22]
  intro hcon
  rw [Vec3.mk.injEq] at hcon
  exact absurd hcon.1 (by norm_num)

/-- C8 amended: pixel writes compose order-independently whenever they go
through the merge branches — always for `Line` (its overwrite branch needs
`udf < 0`, impossible in exact arithmetic), and for `Triangle` at every pixel
where neither instance is fully inside; the per-channel `min`/`max` merges
are commutative and associative.  (The fully-inside `Triangle` overwrite is
order-dependent, per the counterexample.) -/
theorem merge_writes_order_independent :
    (∀ (A B C A2 B2 C2 : Vec2) (c1 c2 : Vec3) (X : Vec2) (v : Vec3),
      ¬ Triangle.udf A B C X < 0 → ¬ Triangle.udf A2 B2 C2 X < 0 →
      Triangle.pixel A2 B2 C2 c2 X (Triangle.pixel A B C c1 X v) =
        Triangle.pixel A B C c1 X (Triangle.pixel A2 B2 C2 c2 X v)) ∧
    (∀ (A B A2 B2 X : Vec2) (v : Vec3),
      Line.pixel A2 B2 X (Line.pixel A B X v) =
        Line.pixel A B X (Line.pixel A2 B2 X v)) ∧
    (∀ u v w : Vec3,
      Vec3.minv u v = Vec3.minv v u ∧
      Vec3.minv (Vec3.minv u v) w = Vec3.minv u (Vec3.minv v w) ∧
      Vec3.maxv u v = Vec3.maxv v u ∧
      Vec3.maxv (Vec3.maxv u v) w = Vec3.maxv u (Vec3.maxv v w)) := by
  refine ⟨fun A B C A2 B2 C2 c1 c2 X v h1 h2 =>
      tri_pixel_comm A B C A2 B2 C2 c1 c2 X v h1 h2,
    fun A B A2 B2 X v => line_pixel_comm A B A2 B2 X v, ?_⟩
  intro u v w
  refine ⟨?_, ?_, ?_, ?_⟩
  · simp only [Vec3.minv, Vec3.mk.injEq]
    exact ⟨min_comm _ _, min_comm _ _, min_comm _ _⟩
  · simp only [Vec3.minv, Vec3.mk.injEq]
    exact ⟨min_assoc _ _ _, min_assoc _ _ _, min_assoc _ _ _⟩
  · simp only [Vec3.maxv, Vec3.mk.injEq]
    exact ⟨max_comm _ _, max_comm _ _, max_comm _ _⟩
  · simp only [Vec3.maxv, Vec3.mk.injEq]
    exact ⟨max_assoc _ _ _, max_assoc _ _ _, max_assoc _ _ _⟩

/-- The concrete triangle is not fully inside at the pixel `(20,20)`. -/
lemma tri_udf_2020_nonneg :
    ¬ Triangle.udf ⟨0, 0⟩ ⟨10, 0⟩ ⟨0, 10⟩ ⟨20, 20⟩ < 0 := by
  have h200 : (0 : ℝ) < Real.sqrt 200 := Real.sqrt_pos.mpr (by norm_num)
  have hnum : Vec2.cross ⟨20, 20⟩ (Vec2.sub ⟨0, 10⟩ ⟨10, 0⟩) +
      Vec2.cross ⟨0, 10⟩ ⟨10, 0⟩ = 300 := by
    norm_num [Vec2.cross, Vec2.sub]
  have hden : (Vec2.sub (⟨0, 10⟩ : Vec2) ⟨10, 0⟩).length = Real.sqrt 200 := by
    norm_num [Vec2.sub, Vec2.length, Vec2.norm_sqr]
  have hedge : 0 ≤ Triangle.edge ⟨10, 0⟩ ⟨0, 10⟩ ⟨20, 20⟩ := by
    rw [edge_div, hnum, hden]
    positivity
  unfold Triangle.udf
  exact not_lt.2 (le_trans hedge (le_trans (le_max_right _ _) (le_max_left _ _)))

/-- Witness for C8 at pixels where both writers take the merge branch. -/
theorem merge_writes_order_independent_spot :
    ¬ Triangle.udf ⟨0, 0⟩ ⟨10, 0⟩ ⟨0, 10⟩ ⟨20, 20⟩ < 0 ∧
    Triangle.pixel ⟨0, 0⟩ ⟨10, 0⟩ ⟨0, 10⟩ ⟨0, 1, 0⟩ ⟨20, 20⟩
        (Triangle.pixel ⟨0, 0⟩ ⟨10, 0⟩ ⟨0, 10⟩ ⟨1, 0, 0⟩ ⟨20, 20⟩
          (Vec3.splat 0)) =
      Triangle.pixel ⟨0, 0⟩ ⟨10, 0⟩ ⟨0, 10⟩ ⟨1, 0, 0⟩ ⟨20, 20⟩
        (Triangle.pixel ⟨0, 0⟩ ⟨10, 0⟩ ⟨0, 10⟩ ⟨0, 1, 0⟩ ⟨20, 20⟩
          (Vec3.splat 0)) :=
  ⟨tri_udf_2020_nonneg,
    merge_writes_order_independent.1 ⟨0, 0⟩ ⟨10, 0⟩ ⟨0, 10⟩ ⟨0, 0⟩ ⟨10, 0⟩
      ⟨0, 10⟩ ⟨1, 0, 0⟩ ⟨0, 1, 0⟩ ⟨20, 20⟩ (Vec3.splat 0)
      tri_udf_2020_nonneg tri_udf_2020_nonneg⟩

/-- C9: rendering two Line instances in either order onto any image yields
the same final image — every Line pixel write is the commutative per-channel
minimum merge. -/
theorem line_render_order_independent (A B A2 B2 : Vec2) (img : Image) :
    Line.do_render A2 B2 (Line.do_render A B img) =
      Line.do_render A B (Line.do_render A2 B2 img) := by
  funext X
  unfold Line.do_render
  by_cases h1 : Line.inBox A B X <;> by_cases h2 : Line.inBox A2 B2 X <;>
    simp only [h1, h2, if_true, if_false, ite_true, ite_false,
      eq_self_iff_true]
  · exact line_pixel_comm A B A2 B2 (pixelPt X) (img X)
